import Mathlib

/-!
Shallow embedding of the weighted embedding product matcher
(`matcher_duplicates.py`) together with the rate-limit handling of
`modify_description.py` (`call_gemini`), and proofs settling the frozen
claims about the natural-language specification.

Modelling conventions:
* Python `float` arithmetic is modelled by exact rational arithmetic (`ℚ`).
  Non-finite results of a division by zero (IEEE `nan`) are modelled by `⊤`
  in `WithTop ℚ` where the value flows into a sort (numpy sorts `nan` last
  in ascending order, matching `⊤` being the greatest element).
* `np.linalg.norm` returns the square root of the sum of squares, which is
  irrational in general; functions receiving a norm take it as an explicit
  argument `norm : List ℚ → ℚ`, and theorems that depend on the norm being
  genuine constrain it by `0 ≤ norm v` and `(norm v) ^ 2 = sumSq v`.
* Python strings are modelled as `List Char` (ASCII fragment, which covers
  the stop-word machinery of the source).
* A Python `dict` access `item['f']` on a possibly missing key is modelled
  in the `Except Unit` monad (`KeyError` aborts the computation).
-/

/-! ### Vector primitives (numpy fragment used by the source) -/

/-- `np.dot` of two equal-length vectors (`zipWith` truncates, as the
dimensions always agree in the source). -/
def dot (v1 v2 : List ℚ) : ℚ :=
  (List.zipWith (· * ·) v1 v2).sum

/-- Sum of squares of a vector; `np.linalg.norm v` is its square root. -/
def sumSq (v : List ℚ) : ℚ :=
  dot v v

/-- Element-wise vector addition (numpy `+` on equal-length arrays). -/
def vecAdd (v1 v2 : List ℚ) : List ℚ :=
  List.zipWith (· + ·) v1 v2

/-- Scalar multiplication of a vector (numpy `c * v`). -/
def vecScale (c : ℚ) (v : List ℚ) : List ℚ :=
  v.map (fun x => c * x)

/-! ### Text preprocessing (`preprocess_text`, lines 51-66) -/

/-- The whitespace class of Python's `str.split()` and of `\s` in `re`
(ASCII fragment). -/
def isPySpace (c : Char) : Bool :=
  c == ' ' || c == '\t' || c == '\n' || c == '\r' || c == '\x0b' || c == '\x0c'

/-- Python `text.split()`: split on runs of whitespace, discarding empty
pieces. -/
def pyWords (s : List Char) : List (List Char) :=
  match s with
  | [] => []
  | c :: rest =>
    if isPySpace c then pyWords rest
    else (c :: rest.takeWhile (fun d => !isPySpace d)) ::
      pyWords (rest.dropWhile (fun d => !isPySpace d))
termination_by s.length
decreasing_by
· simp
· simp only [List.length_cons]
  exact Nat.lt_succ_of_le ((List.dropWhile_sublist _).length_le)

/-- Python `' '.join(words)`. -/
def joinWords : List (List Char) → List Char
  | [] => []
  | [w] => w
  | w :: ws => w ++ ' ' :: joinWords ws

/-- `preprocess_text` (lines 51-66): lower-case, replace every character
that is not a letter and not whitespace by a space
(`re.sub(r'[^a-zA-Z\s]', ' ', text)`), split into words, drop the words in
the stop-word set, re-join with single spaces.  The stop-word set
`ALL_STOP_WORDS` (NLTK English stop words united with the module-level
custom set) is abstracted as a membership test `isStop`, on which none of
the claims depend. -/
def preprocess_text (isStop : List Char → Bool) (text : List Char) : List Char :=
  let lowered := text.map Char.toLower
  let subbed := lowered.map (fun c => if c.isAlpha || isPySpace c then c else ' ')
  let words := pyWords subbed
  let kept := words.filter (fun w => !isStop w)
  joinWords kept

/-- Python `s.strip()` (whitespace on both ends). -/
def pyStrip (s : List Char) : List Char :=
  ((s.dropWhile isPySpace).reverse.dropWhile isPySpace).reverse

/-- The text `get_embedding` (lines 73-84) actually submits to the
embedding provider: the preprocessed text, or the original text when the
preprocessed text is empty after stripping
(`if not cleaned_text.strip(): cleaned_text = text`). -/
def get_embedding_input (isStop : List Char → Bool) (text : List Char) : List Char :=
  let cleaned := preprocess_text isStop text
  if pyStrip cleaned = [] then text else cleaned

/-! ### Embedding acquisition (`get_embedding`, lines 73-84) -/

/-- The embedding provider as seen by `get_embedding`: a response to the
`n`-th attempt with a given input text.  `Except.error d` models a
rate-limit (429-class) exception carrying a suggested retry delay of `d`
seconds; `Except.ok` carries the returned embedding vector. -/
def get_embedding (isStop : List Char → Bool)
    (provider : List Char → Nat → Except Nat (List ℚ)) (text : List Char) :
    Except Nat (List ℚ) × List Nat :=
  -- The source issues exactly one provider call (`client.embeddings.create`)
  -- with no try/except, no sleep and no retry: the first response -- also a
  -- rate-limit exception -- is returned as is.  The second component is the
  -- log of executed sleeps, which is always empty here.
  (provider (get_embedding_input isStop text) 0, [])

/-- A simulated response of the Gemini endpoint used by `call_gemini` in
`modify_description.py`: HTTP 200 with a text, HTTP 429 with an optional
parsed retry delay (`none` models an unparsable body, handled by the 30 s
fallback), or any other status code. -/
inductive GeminiResp where
  | ok (text : List Char)
  | rate (delay : Option Nat)
  | err (code : Nat)
deriving DecidableEq

/-- `call_gemini` (`modify_description.py`, lines 30-67) run against a
finite list of simulated responses, returning the accepted result
(`none` when the response list is exhausted while the `while True` loop
would keep retrying) together with the log of executed sleeps.  A 200
response is returned, a 429 response causes a sleep of the supplied retry
delay (default 30 s) followed by a retry, and any other status returns the
sentinel string `ERROR`. -/
def call_gemini : List GeminiResp → Option (List Char) × List Nat
  | [] => (none, [])
  | GeminiResp.ok t :: _ => (some t, [])
  | GeminiResp.rate d :: rest =>
    let r := call_gemini rest
    (r.1, d.getD 30 :: r.2)
  | GeminiResp.err _ :: _ => (some ['E', 'R', 'R', 'O', 'R'], [])

/-! ### Cosine similarity and top-k ranking (lines 86-98) -/

/-- `cosine_similarity` (lines 86-90):
`np.dot(v1, v2) / (np.linalg.norm(v1) * np.linalg.norm(v2))`.
The norm is supplied as an oracle `norm` (see the header).  A zero
denominator makes numpy produce a non-finite value (`nan`, since the
numerator is then zero as well for genuine norms), modelled as `⊤`. -/
def cosine_similarity (norm : List ℚ → ℚ) (v1 v2 : List ℚ) : WithTop ℚ :=
  let denom := norm v1 * norm v2
  if denom = 0 then ⊤ else ((dot v1 v2 / denom : ℚ) : WithTop ℚ)

/-- The sort key of index `i` in `np.argsort(similarities)`. -/
def simKey (sims : List (WithTop ℚ)) (i : Nat) : WithTop ℚ :=
  sims.getD i ⊤

/-- The ordering `np.argsort` establishes on indices: ascending by value;
on equal values the model keeps the original index order (ties of
`np.argsort`'s default sort are deterministic; on the two-element tied
inputs used below any comparison sort agrees with this model).  `nan`
(`⊤`) sorts last, as numpy documents. -/
def argRel (sims : List (WithTop ℚ)) (i j : Nat) : Prop :=
  simKey sims i < simKey sims j ∨ (simKey sims i = simKey sims j ∧ i ≤ j)

instance (sims : List (WithTop ℚ)) (i j : Nat) : Decidable (argRel sims i j) :=
  inferInstanceAs (Decidable (_ ∨ _))

/-- `np.argsort(similarities)`: the indices `0, …, n-1` sorted ascending
by similarity. -/
def argsort (sims : List (WithTop ℚ)) : List Nat :=
  List.insertionSort (argRel sims) (List.range sims.length)

/-- The Python slice `l[-k:]` for an arbitrary integer `k` (note
`l[-0:] = l[0:]` is the whole list, and a negative `k` turns into a
positive start index). -/
def pyTailSlice (l : List Nat) (k : Int) : List Nat :=
  if 0 < k then l.drop (l.length - k.toNat)
  else if k = 0 then l
  else l.drop (-k).toNat

/-- The `(index, score)` form of `get_top_matches` (lines 92-98):
`similarities = [cosine_similarity(source, t) for t in target_embeddings]`,
`top_indices = np.argsort(similarities)[-top_k:][::-1]`, paired with their
scores. -/
def top_matches_idx (norm : List ℚ → ℚ) (source_embedding : List ℚ)
    (target_embeddings : List (List ℚ)) (top_k : Int) : List (Nat × WithTop ℚ) :=
  let similarities := target_embeddings.map (cosine_similarity norm source_embedding)
  let top_indices := (pyTailSlice (argsort similarities) top_k).reverse
  top_indices.map (fun idx => (idx, similarities.getD idx ⊤))

/-! ### Weighted embedding (`get_weighted_embedding`, lines 100-118) -/

/-- The embedding text a field contributes: the provider (`embed`, a pure
oracle for the always-successful case used by the batch claims) applied to
the input `get_embedding` would submit. -/
def embedText (isStop : List Char → Bool) (embed : List Char → List ℚ)
    (text : List Char) : List ℚ :=
  embed (get_embedding_input isStop text)

/-- The pre-normalization weighted combination computed by
`get_weighted_embedding` (lines 111-113):
`title_weight * title_embedding + type_weight * type_embedding +
description_weight * desc_embedding`. -/
def weighted_sum (isStop : List Char → Bool) (embed : List Char → List ℚ)
    (title description product_type : List Char)
    (title_weight type_weight description_weight : ℚ) : List ℚ :=
  vecAdd
    (vecAdd (vecScale title_weight (embedText isStop embed title))
      (vecScale type_weight (embedText isStop embed product_type)))
    (vecScale description_weight (embedText isStop embed description))

/-- `get_weighted_embedding` (lines 100-118): the weighted combination
divided component-wise by its L2 norm
(`weighted_embedding / np.linalg.norm(weighted_embedding)`).  Division by a
zero norm yields `0` components in this exact model where numpy yields
`nan` components; both fail to have unit norm, which is all the claims
use at that point.  No validation of the weights is performed, mirroring
the source. -/
def get_weighted_embedding (isStop : List Char → Bool) (embed : List Char → List ℚ)
    (norm : List ℚ → ℚ) (title description product_type : List Char)
    (title_weight type_weight description_weight : ℚ) : List ℚ :=
  let w := weighted_sum isStop embed title description product_type
    title_weight type_weight description_weight
  w.map (fun x => x / norm w)

/-! ### Confidence formatting (`match_products`, line 182) -/

/-- Round half to even to the nearest integer (the rounding of Python's
fixed-point formatting). -/
def roundHalfEven (q : ℚ) : Int :=
  let f := ⌊q⌋
  let frac := q - f
  if frac < 1/2 then f
  else if 1/2 < frac then f + 1
  else if 2 ∣ f then f else f + 1

/-- Decimal digits, fuel-based so that the definition is structural (the
fuel is sufficient whenever `n < fuel`). -/
def natDigitsAux : Nat → Nat → List Char
  | 0, _ => []
  | fuel + 1, n =>
    if n < 10 then [Char.ofNat (48 + n)]
    else natDigitsAux fuel (n / 10) ++ [Char.ofNat (48 + n % 10)]

/-- Decimal digits of a natural number, most significant first. -/
def natDigits (n : Nat) : List Char :=
  natDigitsAux (n + 1) n

/-- A value below 100 rendered with exactly two digits. -/
def twoDigits (n : Nat) : List Char :=
  if n < 10 then '0' :: natDigits n else natDigits n

/-- Python `f"{v:.2f}"` on the exact value `v`: round to hundredths (half
to even), render with exactly two decimals, minus sign for negative `v`.
(The only divergence from float formatting is the sign of a negative value
that rounds to zero, which none of the theorems touch.) -/
def formatTwoDec (v : ℚ) : List Char :=
  let n := roundHalfEven (v * 100)
  (if v < 0 then ['-'] else []) ++
    natDigits (n.natAbs / 100) ++ '.' :: twoDigits (n.natAbs % 100)

/-- The confidence string of line 182, `f"{match[1] * 100:.2f}%"`, for a
finite score. -/
def formatPercent2 (score : ℚ) : List Char :=
  formatTwoDec (score * 100) ++ ['%']

/-- The confidence string including the non-finite case: a `nan` score
formats as `"nan%"`. -/
def pyFormatConfidence : WithTop ℚ → List Char
  | ⊤ => ['n', 'a', 'n', '%']
  | (q : ℚ) => formatPercent2 q

/-- Full-match test for the frozen dashboard pattern `\d+(\.\d+)?%`. -/
def matchesConfPattern (s : List Char) : Bool :=
  let ds := s.takeWhile Char.isDigit
  let rest := s.dropWhile Char.isDigit
  !ds.isEmpty &&
    (rest == ['%'] ||
      match rest with
      | '.' :: r2 =>
        !(r2.takeWhile Char.isDigit).isEmpty && r2.dropWhile Char.isDigit == ['%']
      | _ => false)

/-! ### Batch matching (`match_products`, lines 120-188) -/

/-- A catalog item as loaded from JSON: a Python dict whose keys may be
absent. -/
structure Item where
  japfa_id : Option (List Char) := none
  licious_id : Option (List Char) := none
  title : Option (List Char) := none
  description : Option (List Char) := none
  category_name : Option (List Char) := none
  type_ : Option (List Char) := none
deriving DecidableEq, Inhabited

/-- Python `item['f']`: raises `KeyError` when the key is absent. -/
def getField : Option (List Char) → Except Unit (List Char)
  | some v => Except.ok v
  | none => Except.error ()

/-- The four `match_type` branches of `match_products`. -/
inductive MatchType where
  | title
  | description
  | weighted
  | combined
deriving DecidableEq

/-- The `japfa_product` summary of a report entry (lines 171-175). -/
structure JapfaProduct where
  title : List Char
  category_name : List Char
  type_ : List Char
deriving DecidableEq, Inhabited

/-- One match record of a report entry (lines 177-183). -/
structure MatchEntry where
  licious_id : List Char
  title : List Char
  type_ : List Char
  category_name : List Char
  confidence : List Char
deriving DecidableEq, Inhabited

/-- One report entry (lines 170-186).  The source's key `matches` is a
reserved word in Lean, hence the underscore. -/
structure ReportEntry where
  japfa_product : JapfaProduct
  matches_ : List MatchEntry
deriving DecidableEq, Inhabited

/-- Insertion into a Python dict modelled as an association list: an
existing key keeps its position and gets the new value, a new key is
appended. -/
def upsert (l : List (List Char × ReportEntry)) (k : List Char) (v : ReportEntry) :
    List (List Char × ReportEntry) :=
  match l with
  | [] => [(k, v)]
  | (k', v') :: rest => if k' = k then (k, v) :: rest else (k', v') :: upsert rest k v

/-- The embedding `match_products` computes for one item in a given mode
(lines 128-142): a missing field raises `KeyError`.  The `weighted` branch
calls `get_weighted_embedding` with the default weights 0.5, 0.3, 0.2; the
`combined` branch embeds `f"{item['title']} {item['description']}"`. -/
def embedFor (isStop : List Char → Bool) (embed : List Char → List ℚ)
    (norm : List ℚ → ℚ) (match_type : MatchType) (item : Item) :
    Except Unit (List ℚ) :=
  match match_type with
  | MatchType.title => do
    let t ← getField item.title
    pure (embedText isStop embed t)
  | MatchType.description => do
    let d ← getField item.description
    pure (embedText isStop embed d)
  | MatchType.weighted => do
    let t ← getField item.title
    let d ← getField item.description
    let ty ← getField item.type_
    pure (get_weighted_embedding isStop embed norm t d ty (1/2) (3/10) (1/5))
  | MatchType.combined => do
    let t ← getField item.title
    let d ← getField item.description
    pure (embedText isStop embed (t ++ ' ' :: d))

/-- `get_top_matches` (lines 92-98) as called by `match_products`: the
top-index pipeline of `top_matches_idx` with each index resolved to its
target item (`target_items[idx]`; indices produced by `argsort` are always
in range, so the `getD` default is never used under the theorems'
hypotheses). -/
def get_top_matches (norm : List ℚ → ℚ) (target_items : List Item)
    (source_embedding : List ℚ) (target_embeddings : List (List ℚ))
    (top_k : Int) : List (Item × WithTop ℚ) :=
  (top_matches_idx norm source_embedding target_embeddings top_k).map
    (fun p => (target_items.getD p.1 default, p.2))

/-- The report entry built for one source item (lines 165-186). -/
def buildEntry (norm : List ℚ → ℚ) (target_items : List Item)
    (source_item : Item) (source_embedding : List ℚ)
    (target_embeddings : List (List ℚ)) :
    Except Unit (List Char × ReportEntry) := do
  let key ← getField source_item.japfa_id
  let jt ← getField source_item.title
  let jc ← getField source_item.category_name
  let jty ← getField source_item.type_
  let tops := get_top_matches norm target_items source_embedding target_embeddings 3
  let mentries ← tops.mapM (fun m => do
    let lid ← getField m.1.licious_id
    let mt ← getField m.1.title
    let mty ← getField m.1.type_
    let mc ← getField m.1.category_name
    pure { licious_id := lid, title := mt, type_ := mty, category_name := mc,
           confidence := pyFormatConfidence m.2 : MatchEntry })
  pure (key, { japfa_product := { title := jt, category_name := jc, type_ := jty },
               matches_ := mentries })

/-- `match_products` (lines 120-188): embed every source item, embed every
target item, then build one report entry per source item keyed by
`japfa_id` (duplicate keys overwrite, as in a Python dict).  A missing
required field anywhere raises `KeyError` and aborts the whole batch —
there is no skipping logic in the source. -/
def match_products (isStop : List Char → Bool) (embed : List Char → List ℚ)
    (norm : List ℚ → ℚ) (source_items target_items : List Item)
    (match_type : MatchType) :
    Except Unit (List (List Char × ReportEntry)) := do
  let source_embeddings ← source_items.mapM (embedFor isStop embed norm match_type)
  let target_embeddings ← target_items.mapM (embedFor isStop embed norm match_type)
  let pairs ← (source_items.zip source_embeddings).mapM
    (fun p => buildEntry norm target_items p.1 p.2 target_embeddings)
  pure (pairs.foldl (fun acc kv => upsert acc kv.1 kv.2) [])

/-- All fields `match_products` reads from a source item are present. -/
def hasSourceFields (item : Item) : Bool :=
  item.japfa_id.isSome && item.title.isSome && item.description.isSome &&
    item.category_name.isSome && item.type_.isSome

/-- All fields `match_products` reads from a target item are present. -/
def hasTargetFields (item : Item) : Bool :=
  item.licious_id.isSome && item.title.isSome && item.description.isSome &&
    item.category_name.isSome && item.type_.isSome

/-- The embedding `embedFor` computes in `weighted` mode when the three
text fields are present. -/
def weightedEmbOf (isStop : List Char → Bool) (embed : List Char → List ℚ)
    (norm : List ℚ → ℚ) (item : Item) : List ℚ :=
  get_weighted_embedding isStop embed norm (item.title.getD [])
    (item.description.getD []) (item.type_.getD []) (1/2) (3/10) (1/5)

/-- The report entry `buildEntry` produces when every field it reads is
present. -/
def entryOf (norm : List ℚ → ℚ) (target_items : List Item)
    (tembs : List (List ℚ)) (p : Item × List ℚ) : List Char × ReportEntry :=
  (p.1.japfa_id.getD [],
   { japfa_product :=
       { title := p.1.title.getD [], category_name := p.1.category_name.getD [],
         type_ := p.1.type_.getD [] },
     matches_ := (get_top_matches norm target_items p.2 tembs 3).map
       (fun m =>
         { licious_id := m.1.licious_id.getD [], title := m.1.title.getD [],
           type_ := m.1.type_.getD [], category_name := m.1.category_name.getD [],
           confidence := pyFormatConfidence m.2 }) })

/-- A complete source item, used as concrete input by witnesses. -/
def itemComplete : Item :=
  { japfa_id := some ['j'], title := some ['t'], description := some ['d'],
    category_name := some ['c'], type_ := some ['k'] }

/-- A source item lacking the required `title` key, used as concrete
input by counterexamples. -/
def itemNoTitle : Item :=
  { japfa_id := some ['j'], description := some ['d'],
    category_name := some ['c'], type_ := some ['k'] }

/-! ### Word-splitting lemmas (towards the idempotence of preprocessing) -/

theorem mem_takeWhile_pred {p : α → Bool} :
    ∀ {l : List α} {a : α}, a ∈ l.takeWhile p → p a = true := by
  intro l
  induction l with
  | nil => intro a h; simp [List.takeWhile] at h
  | cons x xs ih =>
    intro a h
    rw [List.takeWhile_cons] at h
    by_cases hx : p x = true
    · rw [if_pos hx] at h
      rcases List.mem_cons.mp h with h | h
      · exact h ▸ hx
      · exact ih h
    · rw [if_neg hx] at h
      simp at h

theorem takeWhile_of_all {p : α → Bool} {l : List α} (h : ∀ a ∈ l, p a = true) :
    l.takeWhile p = l := by
  induction l with
  | nil => rfl
  | cons x xs ih =>
    rw [List.takeWhile_cons, if_pos (h x (List.mem_cons_self x xs))]
    exact congrArg (x :: ·) (ih fun a ha => h a (List.mem_cons_of_mem x ha))

theorem dropWhile_of_all {p : α → Bool} {l : List α} (h : ∀ a ∈ l, p a = true) :
    l.dropWhile p = [] := by
  induction l with
  | nil => rfl
  | cons x xs ih =>
    rw [List.dropWhile_cons, if_pos (h x (List.mem_cons_self x xs))]
    exact ih fun a ha => h a (List.mem_cons_of_mem x ha)

theorem pyWords_nil : pyWords [] = [] := by simp [pyWords]

theorem pyWords_cons_space {c : Char} {s : List Char} (h : isPySpace c = true) :
    pyWords (c :: s) = pyWords s := by
  rw [pyWords.eq_def]
  simp [h]

theorem pyWords_cons_word {c : Char} {s : List Char} (h : isPySpace c = false) :
    pyWords (c :: s) =
      (c :: s.takeWhile (fun d => !isPySpace d)) ::
        pyWords (s.dropWhile (fun d => !isPySpace d)) := by
  rw [pyWords.eq_def]
  simp [h]

/-- Every word produced by `pyWords` is non-empty, contains no whitespace,
and consists of characters of the input. -/
theorem pyWords_mem {s : List Char} :
    ∀ w ∈ pyWords s, w ≠ [] ∧ ∀ c ∈ w, isPySpace c = false ∧ c ∈ s := by
  induction s using pyWords.induct with
  | case1 => simp [pyWords_nil]
  | case2 c rest hc ih =>
    rw [pyWords_cons_space hc]
    intro w hw
    obtain ⟨h1, h2⟩ := ih w hw
    exact ⟨h1, fun d hd => ⟨(h2 d hd).1, List.mem_cons_of_mem c (h2 d hd).2⟩⟩
  | case3 c rest hc ih =>
    rw [Bool.not_eq_true] at hc
    rw [pyWords_cons_word hc]
    intro w hw
    rcases List.mem_cons.mp hw with hw | hw
    · subst hw
      refine ⟨List.cons_ne_nil c _, fun d hd => ?_⟩
      rcases List.mem_cons.mp hd with hd | hd
      · exact ⟨hd ▸ hc, hd ▸ List.mem_cons_self c rest⟩
      · have hp := mem_takeWhile_pred hd
        rw [Bool.not_eq_eq_eq_not, Bool.not_true] at hp
        exact ⟨hp,
          List.mem_cons_of_mem c ((List.takeWhile_sublist _).subset hd)⟩
    · obtain ⟨h1, h2⟩ := ih w hw
      exact ⟨h1, fun d hd => ⟨(h2 d hd).1,
        List.mem_cons_of_mem c ((List.dropWhile_sublist _).subset (h2 d hd).2)⟩⟩

/-- Splitting is a left inverse of joining for lists of non-empty,
whitespace-free words. -/
theorem pyWords_join {ws : List (List Char)}
    (h : ∀ w ∈ ws, w ≠ [] ∧ ∀ c ∈ w, isPySpace c = false) :
    pyWords (joinWords ws) = ws := by
  induction ws with
  | nil => exact pyWords_nil
  | cons w rest ih =>
    obtain ⟨hne, hw⟩ := h w (List.mem_cons_self w rest)
    obtain ⟨c, w', rfl⟩ := List.exists_cons_of_ne_nil hne
    have hc : isPySpace c = false := hw c (List.mem_cons_self c w')
    have hw' : ∀ d ∈ w', (fun d => !isPySpace d) d = true := by
      intro d hd
      simp [hw d (List.mem_cons_of_mem c hd)]
    cases rest with
    | nil =>
      show pyWords (c :: w') = [c :: w']
      rw [pyWords_cons_word hc, takeWhile_of_all hw', dropWhile_of_all hw',
        pyWords_nil]
    | cons v rest' =>
      show pyWords ((c :: w') ++ ' ' :: joinWords (v :: rest')) = _
      rw [List.cons_append, pyWords_cons_word hc,
        List.takeWhile_append_of_pos hw', List.dropWhile_append_of_pos hw']
      have hsp : (fun d => !isPySpace d) ' ' = false := by simp [isPySpace]
      rw [List.takeWhile_cons, if_neg (by simp [hsp]), List.append_nil,
        List.dropWhile_cons, if_neg (by simp [hsp]), pyWords_cons_space
          (show isPySpace ' ' = true by simp [isPySpace])]
      rw [ih (fun u hu => h u (List.mem_cons_of_mem _ hu))]

/-- Characters of a join are spaces or characters of the words. -/
theorem mem_joinWords {c : Char} :
    ∀ {ws : List (List Char)}, c ∈ joinWords ws →
      c = ' ' ∨ ∃ w ∈ ws, c ∈ w := by
  intro ws
  induction ws with
  | nil => intro h; simp [joinWords] at h
  | cons w rest ih =>
    intro h
    cases rest with
    | nil =>
      exact Or.inr ⟨w, List.mem_cons_self w [], h⟩
    | cons v rest' =>
      rw [show joinWords (w :: v :: rest') = w ++ ' ' :: joinWords (v :: rest')
          from rfl] at h
      rcases List.mem_append.mp h with h | h
      · exact Or.inr ⟨w, List.mem_cons_self w _, h⟩
      · rcases List.mem_cons.mp h with h | h
        · exact Or.inl h
        · rcases ih h with h | ⟨u, hu, hc⟩
          · exact Or.inl h
          · exact Or.inr ⟨u, List.mem_cons_of_mem w hu, hc⟩

/-! ### Character lemmas for the lower-casing pass -/

theorem toLower_eq_self {c : Char} (h : ¬(c.toNat ≥ 65 ∧ c.toNat ≤ 90)) :
    c.toLower = c := by
  unfold Char.toLower
  exact if_neg h

theorem toLower_not_upper (c : Char) :
    ¬((c.toLower).toNat ≥ 65 ∧ (c.toLower).toNat ≤ 90) := by
  unfold Char.toLower
  by_cases h : c.toNat ≥ 65 ∧ c.toNat ≤ 90
  · rw [if_pos h]
    obtain ⟨h1, h2⟩ := h
    generalize c.toNat = n at h1 h2 ⊢
    interval_cases n <;> decide
  · rwa [if_neg h]

theorem toLower_toLower (c : Char) : c.toLower.toLower = c.toLower :=
  toLower_eq_self (toLower_not_upper c)

/-- Every character of a preprocessed text is a space or a lower-case
letter. -/
theorem preprocess_chars {isStop : List Char → Bool} {text : List Char} :
    ∀ c ∈ preprocess_text isStop text,
      c = ' ' ∨ (c.isAlpha = true ∧ c.toLower = c ∧ isPySpace c = false) := by
  intro c hc
  have hc' : c ∈ joinWords
      ((pyWords ((text.map Char.toLower).map
        (fun c => if c.isAlpha || isPySpace c then c else ' '))).filter
        (fun w => !isStop w)) := hc
  rcases mem_joinWords hc' with h | ⟨w, hw, hcw⟩
  · exact Or.inl h
  · have hwords := pyWords_mem w (List.mem_filter.mp hw).1
    obtain ⟨hsp, hmem⟩ := hwords.2 c hcw
    obtain ⟨c0, hc0, hc0e⟩ := List.mem_map.mp hmem
    by_cases hcond : (c0.isAlpha || isPySpace c0) = true
    · rw [if_pos hcond] at hc0e
      subst hc0e
      obtain ⟨c1, _, hc1e⟩ := List.mem_map.mp hc0
      refine Or.inr ⟨?_, ?_, hsp⟩
      · rcases Bool.or_eq_true_iff.mp hcond with h | h
        · exact h
        · rw [h] at hsp; cases hsp
      · rw [← hc1e]
        exact toLower_toLower c1
    · rw [if_neg hcond] at hc0e
      rw [← hc0e] at hsp
      simp [isPySpace] at hsp

/-- Full C5 statement: `preprocess_text` is idempotent, for every
stop-word set and every input text. -/
theorem preprocess_text_idem_aux (isStop : List Char → Bool) (text : List Char) :
    preprocess_text isStop (preprocess_text isStop text) =
      preprocess_text isStop text := by
  have hkdef : preprocess_text isStop text =
      joinWords ((pyWords ((text.map Char.toLower).map
        (fun c => if c.isAlpha || isPySpace c then c else ' '))).filter
        (fun w => !isStop w)) := rfl
  have hchar := @preprocess_chars isStop text
  -- the lower-casing pass is the identity on preprocessed text
  have hL : (preprocess_text isStop text).map Char.toLower =
      preprocess_text isStop text := by
    refine (List.map_congr_left fun a ha => ?_).trans (List.map_id _)
    rcases hchar a ha with rfl | ⟨_, h2, _⟩
    · decide
    · exact h2
  -- the character-substitution pass is the identity on preprocessed text
  have hS : (preprocess_text isStop text).map
      (fun c => if c.isAlpha || isPySpace c then c else ' ') =
      preprocess_text isStop text := by
    refine (List.map_congr_left fun a ha => ?_).trans (List.map_id _)
    rcases hchar a ha with rfl | ⟨h1, _, _⟩
    · simp
    · simp [h1]
  -- the words of the preprocessed text are exactly the kept words
  have hwords : ∀ w ∈ (pyWords ((text.map Char.toLower).map
      (fun c => if c.isAlpha || isPySpace c then c else ' '))).filter
      (fun w => !isStop w), w ≠ [] ∧ ∀ c ∈ w, isPySpace c = false := by
    intro w hw
    have h := pyWords_mem w (List.mem_filter.mp hw).1
    exact ⟨h.1, fun c hc => (h.2 c hc).1⟩
  calc preprocess_text isStop (preprocess_text isStop text)
      = joinWords ((pyWords (((preprocess_text isStop text).map
          Char.toLower).map
          (fun c => if c.isAlpha || isPySpace c then c else ' '))).filter
          (fun w => !isStop w)) := rfl
    _ = joinWords ((pyWords (preprocess_text isStop text)).filter
          (fun w => !isStop w)) := by rw [hL, hS]
    _ = preprocess_text isStop text := by
        rw [hkdef, pyWords_join hwords, List.filter_filter]
        rw [show ((fun w => !isStop w && !isStop w) :
            List Char → Bool) = fun w => !isStop w from
          funext fun w => Bool.and_self _]

/-! ### Ranking lemmas (`argsort` and the top-k pipeline) -/

theorem argRel_total (sims : List (WithTop ℚ)) :
    ∀ i j, argRel sims i j ∨ argRel sims j i := by
  intro i j
  rcases lt_trichotomy (simKey sims i) (simKey sims j) with h | h | h
  · exact Or.inl (Or.inl h)
  · rcases Nat.le_total i j with hij | hij
    · exact Or.inl (Or.inr ⟨h, hij⟩)
    · exact Or.inr (Or.inr ⟨h.symm, hij⟩)
  · exact Or.inr (Or.inl h)

theorem argRel_trans (sims : List (WithTop ℚ)) :
    ∀ {i j k}, argRel sims i j → argRel sims j k → argRel sims i k := by
  intro i j k hij hjk
  rcases hij with hij | ⟨hij, hij'⟩ <;> rcases hjk with hjk | ⟨hjk, hjk'⟩
  · exact Or.inl (hij.trans hjk)
  · exact Or.inl (hjk ▸ hij)
  · exact Or.inl (hij ▸ hjk)
  · exact Or.inr ⟨hij.trans hjk, hij'.trans hjk'⟩

theorem argsort_sorted (sims : List (WithTop ℚ)) :
    List.Pairwise (argRel sims) (argsort sims) := by
  haveI : IsTotal Nat (argRel sims) := ⟨argRel_total sims⟩
  haveI : IsTrans Nat (argRel sims) := ⟨fun _ _ _ => argRel_trans sims⟩
  exact List.sorted_insertionSort (argRel sims) (List.range sims.length)

theorem argsort_perm (sims : List (WithTop ℚ)) :
    (argsort sims).Perm (List.range sims.length) :=
  List.perm_insertionSort (argRel sims) (List.range sims.length)

theorem argsort_nodup (sims : List (WithTop ℚ)) : (argsort sims).Nodup :=
  ((argsort_perm sims).nodup_iff).mpr (List.nodup_range _)

theorem argsort_length (sims : List (WithTop ℚ)) :
    (argsort sims).length = sims.length :=
  ((argsort_perm sims).length_eq).trans (List.length_range _)

theorem argsort_mem {sims : List (WithTop ℚ)} {i : Nat} (h : i ∈ argsort sims) :
    i < sims.length :=
  List.mem_range.mp ((argsort_perm sims).subset h)

theorem pyTailSlice_sublist (l : List Nat) (k : Int) :
    (pyTailSlice l k).Sublist l := by
  unfold pyTailSlice
  split
  · exact List.drop_sublist _ _
  · split
    · exact List.Sublist.refl l
    · exact List.drop_sublist _ _

theorem pyTailSlice_length_of_pos (l : List Nat) {k : Int} (hk : 0 < k) :
    (pyTailSlice l k).length = min k.toNat l.length := by
  unfold pyTailSlice
  rw [if_pos hk, List.length_drop]
  omega

/-- The `(index, score)` list is ordered by non-increasing score, and
entries with equal scores carry strictly decreasing target indices (the
`[::-1]` reversal flips the ascending `argsort` tie order). -/
theorem top_matches_idx_order (norm : List ℚ → ℚ) (source_embedding : List ℚ)
    (target_embeddings : List (List ℚ)) (top_k : Int) :
    List.Pairwise (fun a b : Nat × WithTop ℚ => b.2 ≤ a.2 ∧ (a.2 = b.2 → b.1 < a.1))
      (top_matches_idx norm source_embedding target_embeddings top_k) := by
  unfold top_matches_idx
  set sims := target_embeddings.map (cosine_similarity norm source_embedding) with hs
  have hsub := pyTailSlice_sublist (argsort sims) top_k
  have h1 : List.Pairwise (argRel sims) (pyTailSlice (argsort sims) top_k) :=
    (argsort_sorted sims).sublist hsub
  have h2 : (pyTailSlice (argsort sims) top_k).Nodup :=
    (argsort_nodup sims).sublist hsub
  have h3 := h1.and h2
  have h4 := List.pairwise_reverse.mpr h3
  refine List.pairwise_map.mpr (h4.imp ?_)
  rintro i j ⟨hrel, hne⟩
  refine ⟨?_, ?_⟩
  · show simKey sims j ≤ simKey sims i
    rcases hrel with hlt | ⟨heq, _⟩
    · exact le_of_lt hlt
    · exact le_of_eq heq
  · intro h
    have h' : simKey sims i = simKey sims j := h
    show j < i
    rcases hrel with hlt | ⟨_, hle⟩
    · rw [h'] at hlt
      exact absurd hlt (lt_irrefl _)
    · exact lt_of_le_of_ne hle hne

theorem top_matches_idx_length (norm : List ℚ → ℚ) (source_embedding : List ℚ)
    (target_embeddings : List (List ℚ)) {top_k : Int} (hk : 1 ≤ top_k) :
    (top_matches_idx norm source_embedding target_embeddings top_k).length =
      min top_k.toNat target_embeddings.length := by
  unfold top_matches_idx
  rw [List.length_map, List.length_reverse,
    pyTailSlice_length_of_pos _ (by omega), argsort_length, List.length_map]

theorem top_matches_idx_mem_lt (norm : List ℚ → ℚ) (source_embedding : List ℚ)
    (target_embeddings : List (List ℚ)) (top_k : Int) :
    ∀ p ∈ top_matches_idx norm source_embedding target_embeddings top_k,
      p.1 < target_embeddings.length := by
  unfold top_matches_idx
  intro p hp
  obtain ⟨i, hi, rfl⟩ := List.mem_map.mp hp
  have hi' : i ∈ argsort _ :=
    (pyTailSlice_sublist _ _).subset (List.mem_reverse.mp hi)
  have := argsort_mem hi'
  simpa using this

/-! ### Norm and normalization lemmas -/

theorem sumSq_cons (a : ℚ) (l : List ℚ) : sumSq (a :: l) = a * a + sumSq l := by
  simp [sumSq, dot]

theorem sumSq_map_div (w : List ℚ) (s : ℚ) :
    sumSq (w.map (fun x => x / s)) = sumSq w / s ^ 2 := by
  induction w with
  | nil => simp [sumSq, dot]
  | cons a l ih =>
    rw [List.map_cons, sumSq_cons, sumSq_cons, ih, add_div]
    congr 1
    rw [div_mul_div_comm, sq]

/-- A zero denominator (a zero-norm operand) sends `cosine_similarity` to
the non-finite value. -/
theorem cosine_similarity_top {norm : List ℚ → ℚ} {v1 v2 : List ℚ}
    (h1 : (norm v1) ^ 2 = sumSq v1) (h2 : (norm v2) ^ 2 = sumSq v2)
    (h : sumSq v1 = 0 ∨ sumSq v2 = 0) :
    cosine_similarity norm v1 v2 = ⊤ := by
  have hz : norm v1 * norm v2 = 0 := by
    rcases h with h | h
    · rw [(pow_eq_zero_iff (by norm_num : (2 : Nat) ≠ 0)).mp (h1.trans h), zero_mul]
    · rw [(pow_eq_zero_iff (by norm_num : (2 : Nat) ≠ 0)).mp (h2.trans h), mul_zero]
  show (if norm v1 * norm v2 = 0 then ⊤ else _) = (⊤ : WithTop ℚ)
  rw [if_pos hz]

/-! ### Formatting lemmas (digits and the dashboard pattern) -/

theorem natDigitsAux_spec :
    ∀ {fuel n : Nat}, n < fuel →
      natDigitsAux fuel n ≠ [] ∧ ∀ c ∈ natDigitsAux fuel n, c.isDigit = true := by
  intro fuel
  induction fuel with
  | zero => intro n h; omega
  | succ fuel ih =>
    intro n h
    by_cases h10 : n < 10
    · rw [show natDigitsAux (fuel + 1) n = [Char.ofNat (48 + n)] from by
        simp [natDigitsAux, h10]]
      refine ⟨List.cons_ne_nil _ _, fun c hc => ?_⟩
      rw [List.mem_singleton.mp hc]
      interval_cases n <;> decide
    · rw [show natDigitsAux (fuel + 1) n =
          natDigitsAux fuel (n / 10) ++ [Char.ofNat (48 + n % 10)] from by
        simp [natDigitsAux, h10]]
      have hlt : n / 10 < fuel := by
        have := Nat.div_lt_self (by omega : 0 < n) (by omega : 1 < 10)
        omega
      obtain ⟨h1, h2⟩ := ih hlt
      refine ⟨by simp [h1], fun c hc => ?_⟩
      rcases List.mem_append.mp hc with hc | hc
      · exact h2 c hc
      · rw [List.mem_singleton.mp hc]
        have hm : n % 10 < 10 := Nat.mod_lt _ (by omega)
        set m := n % 10 with hmm
        interval_cases m <;> decide

theorem natDigits_spec (n : Nat) :
    natDigits n ≠ [] ∧ ∀ c ∈ natDigits n, c.isDigit = true :=
  natDigitsAux_spec (Nat.lt_succ_self n)

theorem twoDigits_spec (n : Nat) :
    twoDigits n ≠ [] ∧ ∀ c ∈ twoDigits n, c.isDigit = true := by
  unfold twoDigits
  obtain ⟨h1, h2⟩ := natDigits_spec n
  split
  · refine ⟨List.cons_ne_nil _ _, fun c hc => ?_⟩
    rcases List.mem_cons.mp hc with hc | hc
    · rw [hc]; decide
    · exact h2 c hc
  · exact ⟨h1, h2⟩

/-- Any string of the shape `digits ++ "." ++ digits ++ "%"` with both
digit groups non-empty passes the dashboard pattern `\d+(\.\d+)?%`. -/
theorem matchesConfPattern_of_shape {A B : List Char}
    (hA : A ≠ []) (hA2 : ∀ c ∈ A, c.isDigit = true)
    (hB : B ≠ []) (hB2 : ∀ c ∈ B, c.isDigit = true) :
    matchesConfPattern (A ++ '.' :: (B ++ ['%'])) = true := by
  unfold matchesConfPattern
  have hdot : ('.' : Char).isDigit = false := by decide
  have hpct : ('%' : Char).isDigit = false := by decide
  rw [List.takeWhile_append_of_pos hA2, List.dropWhile_append_of_pos hA2,
    List.takeWhile_cons, if_neg (by simp [hdot]),
    List.dropWhile_cons, if_neg (by simp [hdot])]
  simp only [List.append_nil]
  rw [List.takeWhile_append_of_pos hB2, List.dropWhile_append_of_pos hB2]
  have h1 : (A ++ ([] : List Char)).isEmpty = false := by
    simp [List.isEmpty_iff, hA]
  have h2 : (B ++ ('%' :: []).takeWhile Char.isDigit).isEmpty = false := by
    rw [List.takeWhile_cons, if_neg (by simp [hpct])]
    simp [List.isEmpty_iff, hB]
  rw [List.takeWhile_cons, if_neg (by simp [hpct]),
    List.dropWhile_cons, if_neg (by simp [hpct])]
  simp [hB, hA]

/-- The confidence string of a finite score `q` is
`sign ++ digits ++ "." ++ two digits ++ "%"`. -/
theorem formatPercent2_shape (q : ℚ) :
    formatPercent2 q =
      (if q * 100 < 0 then ['-'] else []) ++
        (natDigits ((roundHalfEven (q * 100 * 100)).natAbs / 100) ++
          '.' :: (twoDigits ((roundHalfEven (q * 100 * 100)).natAbs % 100) ++ ['%'])) := by
  unfold formatPercent2 formatTwoDec
  simp [List.append_assoc]

/-! ### Batch-matching lemmas -/

theorem mapM_ok {α β : Type} {f : α → Except Unit β} {g : α → β} :
    ∀ {l : List α}, (∀ x ∈ l, f x = Except.ok (g x)) →
      l.mapM f = Except.ok (l.map g) := by
  intro l
  induction l with
  | nil => intro _; rfl
  | cons x xs ih =>
    intro h
    rw [List.mapM_cons, h x (List.mem_cons_self x xs),
      ih fun a ha => h a (List.mem_cons_of_mem x ha)]
    rfl

theorem upsert_of_not_mem {l : List (List Char × ReportEntry)} {k : List Char}
    {v : ReportEntry} (h : k ∉ l.map Prod.fst) : upsert l k v = l ++ [(k, v)] := by
  induction l with
  | nil => rfl
  | cons p rest ih =>
    rw [show upsert (p :: rest) k v =
        if p.1 = k then (k, v) :: rest else p :: upsert rest k v from rfl]
    rw [List.map_cons] at h
    have hne : ¬(p.1 = k) := fun he => h (by rw [← he]; exact List.mem_cons_self _ _)
    rw [if_neg hne, List.cons_append, ih fun hm => h (List.mem_cons_of_mem _ hm)]

theorem foldl_upsert_length :
    ∀ {pairs : List (List Char × ReportEntry)}
      {acc : List (List Char × ReportEntry)},
      (acc.map Prod.fst ++ pairs.map Prod.fst).Nodup →
      (pairs.foldl (fun acc kv => upsert acc kv.1 kv.2) acc).length =
        acc.length + pairs.length := by
  intro pairs
  induction pairs with
  | nil => intro acc _; simp
  | cons p rest ih =>
    intro acc hnd
    rw [List.foldl_cons]
    have hk : p.1 ∉ acc.map Prod.fst := by
      intro hm
      rcases List.nodup_append.mp hnd with ⟨_, _, hdisj⟩
      exact hdisj hm (by simp)
    rw [upsert_of_not_mem hk]
    have hnd' : ((acc ++ [(p.1, p.2)]).map Prod.fst ++
        (rest.map Prod.fst)).Nodup := by
      rw [List.map_append]
      have : acc.map Prod.fst ++ [(p.1, p.2)].map Prod.fst ++ rest.map Prod.fst =
          acc.map Prod.fst ++ (p :: rest).map Prod.fst := by
        simp
      rw [this]
      exact hnd
    rw [ih hnd']
    simp
    omega

theorem getField_some (v : List Char) : getField (some v) = Except.ok v := rfl

theorem except_ok_bind {α β : Type} (a : α) (f : α → Except Unit β) :
    (Except.ok a >>= f) = f a := rfl

theorem embedFor_weighted_ok {isStop : List Char → Bool}
    {embed : List Char → List ℚ} {norm : List ℚ → ℚ} {item : Item}
    (h1 : item.title.isSome = true) (h2 : item.description.isSome = true)
    (h3 : item.type_.isSome = true) :
    embedFor isStop embed norm MatchType.weighted item =
      Except.ok (weightedEmbOf isStop embed norm item) := by
  obtain ⟨t, htt⟩ := Option.isSome_iff_exists.mp h1
  obtain ⟨d, hd⟩ := Option.isSome_iff_exists.mp h2
  obtain ⟨ty, hty⟩ := Option.isSome_iff_exists.mp h3
  unfold embedFor weightedEmbOf
  rw [htt, hd, hty]
  rfl

theorem buildEntry_ok {norm : List ℚ → ℚ} {target_items : List Item}
    {source_item : Item} {source_embedding : List ℚ} {tembs : List (List ℚ)}
    (hsf : hasSourceFields source_item = true)
    (ht : ∀ item ∈ target_items, hasTargetFields item = true)
    (hlen : tembs.length = target_items.length) :
    buildEntry norm target_items source_item source_embedding tembs =
      Except.ok (entryOf norm target_items tembs (source_item, source_embedding)) := by
  unfold hasSourceFields at hsf
  simp only [Bool.and_eq_true, Option.isSome_iff_exists] at hsf
  obtain ⟨⟨⟨⟨⟨jid, hjid⟩, t, htt⟩, d, hd⟩, c, hc⟩, ty, hty⟩ := hsf
  have hmm : (get_top_matches norm target_items source_embedding tembs 3).mapM
      (fun m => do
        let lid ← getField m.1.licious_id
        let mt ← getField m.1.title
        let mty ← getField m.1.type_
        let mc ← getField m.1.category_name
        pure { licious_id := lid, title := mt, type_ := mty, category_name := mc,
               confidence := pyFormatConfidence m.2 : MatchEntry }) =
      Except.ok ((get_top_matches norm target_items source_embedding tembs 3).map
        (fun m =>
          { licious_id := m.1.licious_id.getD [], title := m.1.title.getD [],
            type_ := m.1.type_.getD [], category_name := m.1.category_name.getD [],
            confidence := pyFormatConfidence m.2 })) := by
    apply mapM_ok
    intro m hm
    have hmem : m.1 ∈ target_items := by
      unfold get_top_matches at hm
      obtain ⟨q, hq, rfl⟩ := List.mem_map.mp hm
      have hlt : q.1 < target_items.length :=
        hlen ▸ top_matches_idx_mem_lt norm source_embedding tembs 3 q hq
      rw [List.getD_eq_getElem _ _ hlt]
      exact List.getElem_mem hlt
    have := ht m.1 hmem
    unfold hasTargetFields at this
    simp only [Bool.and_eq_true, Option.isSome_iff_exists] at this
    obtain ⟨⟨⟨⟨⟨lid, hlid⟩, mt, hmt⟩, md, hmd⟩, mc, hmc⟩, mty, hmty⟩ := this
    rw [hlid, hmt, hmty, hmc]
    rfl
  unfold buildEntry entryOf
  rw [hjid, htt, hc, hty]
  simp only [getField_some, except_ok_bind]
  rw [hmm]
  simp only [except_ok_bind, hjid, htt, hc, hty]
  rfl

/-- When every item carries all required fields and the source ids are
distinct (as catalog ids are), the weighted batch succeeds with exactly
one report entry per source item. -/
theorem match_products_weighted_ok (isStop : List Char → Bool)
    (embed : List Char → List ℚ) (norm : List ℚ → ℚ)
    {source_items target_items : List Item}
    (hs : ∀ item ∈ source_items, hasSourceFields item = true)
    (ht : ∀ item ∈ target_items, hasTargetFields item = true)
    (hnd : (source_items.map Item.japfa_id).Nodup) :
    ∃ r, match_products isStop embed norm source_items target_items
        MatchType.weighted = Except.ok r ∧ r.length = source_items.length := by
  have hsembs : source_items.mapM (embedFor isStop embed norm MatchType.weighted) =
      Except.ok (source_items.map (weightedEmbOf isStop embed norm)) := by
    apply mapM_ok
    intro item hi
    have h := hs item hi
    unfold hasSourceFields at h
    simp only [Bool.and_eq_true] at h
    exact embedFor_weighted_ok h.1.1.1.2 h.1.1.2 h.2
  have htembs : target_items.mapM (embedFor isStop embed norm MatchType.weighted) =
      Except.ok (target_items.map (weightedEmbOf isStop embed norm)) := by
    apply mapM_ok
    intro item hi
    have h := ht item hi
    unfold hasTargetFields at h
    simp only [Bool.and_eq_true] at h
    exact embedFor_weighted_ok h.1.1.1.2 h.1.1.2 h.2
  have hlen : (target_items.map (weightedEmbOf isStop embed norm)).length =
      target_items.length := List.length_map _ _
  have hpairs : (source_items.zip
        (source_items.map (weightedEmbOf isStop embed norm))).mapM
      (fun p => buildEntry norm target_items p.1 p.2
        (target_items.map (weightedEmbOf isStop embed norm))) =
      Except.ok ((source_items.zip
        (source_items.map (weightedEmbOf isStop embed norm))).map
        (entryOf norm target_items
          (target_items.map (weightedEmbOf isStop embed norm)))) := by
    apply mapM_ok
    intro p hp
    have hmem : p.1 ∈ source_items := (List.of_mem_zip hp).1
    have : buildEntry norm target_items p.1 p.2
        (target_items.map (weightedEmbOf isStop embed norm)) =
        Except.ok (entryOf norm target_items
          (target_items.map (weightedEmbOf isStop embed norm)) (p.1, p.2)) :=
      buildEntry_ok (hs p.1 hmem) ht hlen
    exact this
  refine ⟨((source_items.zip
      (source_items.map (weightedEmbOf isStop embed norm))).map
      (entryOf norm target_items
        (target_items.map (weightedEmbOf isStop embed norm)))).foldl
      (fun acc kv => upsert acc kv.1 kv.2) [], ?_, ?_⟩
  · unfold match_products
    rw [hsembs, except_ok_bind, htembs, except_ok_bind, hpairs, except_ok_bind]
    rfl
  · -- the fold over distinct keys keeps one entry per source item
    have hfst : ((source_items.zip
        (source_items.map (weightedEmbOf isStop embed norm))).map
        (entryOf norm target_items
          (target_items.map (weightedEmbOf isStop embed norm)))).map Prod.fst =
        source_items.map (fun item => item.japfa_id.getD []) := by
      rw [List.map_map]
      have step1 : (source_items.zip
          (source_items.map (weightedEmbOf isStop embed norm))).map
          (Prod.fst ∘ entryOf norm target_items
            (target_items.map (weightedEmbOf isStop embed norm))) =
          ((source_items.zip
            (source_items.map (weightedEmbOf isStop embed norm))).map
            Prod.fst).map (fun item => item.japfa_id.getD []) := by
        rw [List.map_map]
        exact List.map_congr_left fun a _ => rfl
      rw [step1, List.map_fst_zip source_items _ (by rw [List.length_map])]
    have hknd : (((source_items.zip
        (source_items.map (weightedEmbOf isStop embed norm))).map
        (entryOf norm target_items
          (target_items.map (weightedEmbOf isStop embed norm)))).map
          Prod.fst).Nodup := by
      rw [hfst]
      apply List.Nodup.of_map some
      have : (source_items.map (fun item => item.japfa_id.getD [])).map some =
          source_items.map Item.japfa_id := by
        rw [List.map_map]
        apply List.map_congr_left
        intro item hi
        have h := hs item hi
        unfold hasSourceFields at h
        simp only [Bool.and_eq_true] at h
        obtain ⟨jid, hjid⟩ := Option.isSome_iff_exists.mp h.1.1.1.1
        show some (item.japfa_id.getD []) = item.japfa_id
        rw [hjid]
        rfl
      rw [this]
      exact hnd
    rw [foldl_upsert_length (by simpa using hknd)]
    rw [List.length_map, List.length_zip, List.length_map]
    simp

/-! ### Claim theorems -/

/-- C1 (amended): for weights 0.5/0.3/0.2, whenever the element-wise
weighted combination of the three component embeddings is nonzero (the
claim's hypothesis "components not all zero" is not enough, see the
counterexample) and `norm` is the genuine L2 norm of that combination,
`get_weighted_embedding` returns the combination re-normalized to unit L2
norm: its sum of squares is exactly 1. -/
theorem weighted_embedding_unit_norm (isStop : List Char → Bool)
    (embed : List Char → List ℚ) (norm : List ℚ → ℚ)
    (title description product_type : List Char)
    (hnorm : (norm (weighted_sum isStop embed title description product_type
      (1/2) (3/10) (1/5))) ^ 2 =
      sumSq (weighted_sum isStop embed title description product_type
        (1/2) (3/10) (1/5)))
    (hnz : sumSq (weighted_sum isStop embed title description product_type
      (1/2) (3/10) (1/5)) ≠ 0) :
    sumSq (get_weighted_embedding isStop embed norm title description
      product_type (1/2) (3/10) (1/5)) = 1 := by
  unfold get_weighted_embedding
  rw [sumSq_map_div, hnorm, div_self hnz]

/-- Witness for C1 at a concrete input: one-dimensional embeddings `[2]`
for every field give the combination `[2]`, norm 2, normalized `[1]`. -/
theorem weighted_embedding_unit_norm_witness :
    ((fun _ : List ℚ => (2:ℚ)) (weighted_sum (fun _ => false)
      (fun _ => [(2:ℚ)]) ['t'] ['d'] ['y'] (1/2) (3/10) (1/5))) ^ 2 =
      sumSq (weighted_sum (fun _ => false) (fun _ => [(2:ℚ)]) ['t'] ['d'] ['y']
        (1/2) (3/10) (1/5)) ∧
    sumSq (weighted_sum (fun _ => false) (fun _ => [(2:ℚ)]) ['t'] ['d'] ['y']
      (1/2) (3/10) (1/5)) ≠ 0 ∧
    sumSq (get_weighted_embedding (fun _ => false) (fun _ => [(2:ℚ)])
      (fun _ => 2) ['t'] ['d'] ['y'] (1/2) (3/10) (1/5)) = 1 :=
  ⟨by norm_num [weighted_sum, embedText, vecAdd, vecScale, sumSq, dot],
   by norm_num [weighted_sum, embedText, vecAdd, vecScale, sumSq, dot],
   weighted_embedding_unit_norm (fun _ => false) (fun _ => [(2:ℚ)])
     (fun _ => 2) ['t'] ['d'] ['y']
     (by norm_num [weighted_sum, embedText, vecAdd, vecScale, sumSq, dot])
     (by norm_num [weighted_sum, embedText, vecAdd, vecScale, sumSq, dot])⟩

/-- C1 counterexample: three unit-norm component embeddings (`[1]`, `[-1]`,
`[-1]` — none zero) whose weighted combination `0.5·1 − 0.3 − 0.2`
cancels to the zero vector.  The division by the zero norm yields a vector
of squared norm 0 (numpy: a `nan` vector), not 1, refuting the claim as
stated. -/
theorem weighted_embedding_cancellation_cex :
    sumSq (embedText (fun _ => false)
      (fun s => if s = ['t'] then [(1:ℚ)] else [-1]) ['t']) = 1 ∧
    sumSq (embedText (fun _ => false)
      (fun s => if s = ['t'] then [(1:ℚ)] else [-1]) ['y']) = 1 ∧
    sumSq (embedText (fun _ => false)
      (fun s => if s = ['t'] then [(1:ℚ)] else [-1]) ['d']) = 1 ∧
    ((fun v => if sumSq v = 0 then (0:ℚ) else 1) (weighted_sum (fun _ => false)
      (fun s => if s = ['t'] then [(1:ℚ)] else [-1]) ['t'] ['d'] ['y']
      (1/2) (3/10) (1/5))) ^ 2 =
      sumSq (weighted_sum (fun _ => false)
        (fun s => if s = ['t'] then [(1:ℚ)] else [-1]) ['t'] ['d'] ['y']
        (1/2) (3/10) (1/5)) ∧
    sumSq (get_weighted_embedding (fun _ => false)
      (fun s => if s = ['t'] then [(1:ℚ)] else [-1])
      (fun v => if sumSq v = 0 then (0:ℚ) else 1) ['t'] ['d'] ['y']
      (1/2) (3/10) (1/5)) ≠ 1 := by
  have hit : get_embedding_input (fun _ => false) ['t'] = ['t'] := by
    simp [get_embedding_input, preprocess_text, pyWords, isPySpace, joinWords,
      pyStrip]
  have hiy : get_embedding_input (fun _ => false) ['y'] = ['y'] := by
    simp [get_embedding_input, preprocess_text, pyWords, isPySpace, joinWords,
      pyStrip]
  have hid : get_embedding_input (fun _ => false) ['d'] = ['d'] := by
    simp [get_embedding_input, preprocess_text, pyWords, isPySpace, joinWords,
      pyStrip]
  have het : embedText (fun _ => false)
      (fun s => if s = ['t'] then [(1:ℚ)] else [-1]) ['t'] = [1] := by
    simp [embedText, hit]
  have hey : embedText (fun _ => false)
      (fun s => if s = ['t'] then [(1:ℚ)] else [-1]) ['y'] = [-1] := by
    simp [embedText, hiy]
  have hed : embedText (fun _ => false)
      (fun s => if s = ['t'] then [(1:ℚ)] else [-1]) ['d'] = [-1] := by
    simp [embedText, hid]
  have hw : weighted_sum (fun _ => false)
      (fun s => if s = ['t'] then [(1:ℚ)] else [-1]) ['t'] ['d'] ['y']
      (1/2) (3/10) (1/5) = [0] := by
    unfold weighted_sum
    rw [het, hey, hed]
    norm_num [vecAdd, vecScale]
  refine ⟨?_, ?_, ?_, ?_, ?_⟩
  · rw [het]; norm_num [sumSq, dot]
  · rw [hey]; norm_num [sumSq, dot]
  · rw [hed]; norm_num [sumSq, dot]
  · rw [hw]; norm_num [sumSq, dot]
  · unfold get_weighted_embedding
    rw [hw]
    norm_num [sumSq, dot]

/-- C2 (amended): `get_top_matches`, in its `(index, score)` form
`top_matches_idx`, returns entries sorted by non-increasing similarity,
deterministically; but entries with equal scores appear in REVERSE
original target order (`np.argsort` ascending followed by `[::-1]`
reverses the tie order), not in original order as claimed. -/
theorem top_matches_sorted_ties_reversed (norm : List ℚ → ℚ)
    (source_embedding : List ℚ) (target_embeddings : List (List ℚ))
    (top_k : Int) :
    List.Pairwise (fun a b : Nat × WithTop ℚ => b.2 ≤ a.2 ∧ (a.2 = b.2 → b.1 < a.1))
      (top_matches_idx norm source_embedding target_embeddings top_k) :=
  top_matches_idx_order norm source_embedding target_embeddings top_k

/-- C2 counterexample: two tied targets (both similarity 1) come back as
indices `[1, 0]` — the reverse of original order — refuting the claimed
stable original-order tie-breaking. -/
theorem top_matches_tie_order_cex :
    top_matches_idx sumSq [1] [[1], [1]] 3 = [(1, (1 : WithTop ℚ)), (0, 1)] ∧
    ¬ List.Pairwise (fun a b : Nat × WithTop ℚ => a.2 = b.2 → a.1 < b.1)
      (top_matches_idx sumSq [1] [[1], [1]] 3) := by
  have h : top_matches_idx sumSq [1] [[1], [1]] 3 =
      [(1, (1 : WithTop ℚ)), (0, 1)] := by
    norm_num [top_matches_idx, cosine_similarity, dot, sumSq, argsort, argRel,
      simKey, pyTailSlice]
  refine ⟨h, ?_⟩
  rw [h]
  intro hp
  have h01 := (List.pairwise_cons.mp hp).1 (0, 1) (List.mem_singleton.mpr rfl) rfl
  exact absurd h01 (by decide)

/-- C3: for `k ≥ 1` the ranking returns exactly `min k n` entries, and an
empty target list yields the empty result rather than an error. -/
theorem top_matches_count (norm : List ℚ → ℚ) (target_items : List Item)
    (source_embedding : List ℚ) (target_embeddings : List (List ℚ))
    {k : Int} (hk : 1 ≤ k) :
    (get_top_matches norm target_items source_embedding target_embeddings
      k).length = min k.toNat target_embeddings.length ∧
    (target_embeddings = [] →
      get_top_matches norm target_items source_embedding target_embeddings
        k = []) := by
  constructor
  · unfold get_top_matches
    rw [List.length_map, top_matches_idx_length _ _ _ hk]
  · intro he
    subst he
    have h0 : (get_top_matches norm target_items source_embedding [] k).length
        = 0 := by
      unfold get_top_matches
      rw [List.length_map, top_matches_idx_length _ _ _ hk]
      simp
    exact List.length_eq_zero.mp h0

/-- Witness for C3: one target vector and `k = 2` yield one entry. -/
theorem top_matches_count_witness :
    (1:Int) ≤ 2 ∧
    ((get_top_matches sumSq [] [1] [[1]] 2).length =
        min (2:Int).toNat [[(1:ℚ)]].length ∧
      ([[(1:ℚ)]] = ([] : List (List ℚ)) →
        get_top_matches sumSq [] [1] [[1]] 2 = [])) :=
  ⟨by decide, top_matches_count sumSq [] [1] [[1]] (by decide)⟩

/-- C4 (amended): when either operand has a zero norm,
`cosine_similarity` returns the non-finite value `nan` (modelled `⊤`)
without raising an exception; it does NOT return `0.0` (see the
counterexample). -/
theorem cosine_zero_norm_nan (norm : List ℚ → ℚ) (v1 v2 : List ℚ)
    (h1 : (norm v1) ^ 2 = sumSq v1) (h2 : (norm v2) ^ 2 = sumSq v2)
    (h : sumSq v1 = 0 ∨ sumSq v2 = 0) :
    cosine_similarity norm v1 v2 = ⊤ :=
  cosine_similarity_top h1 h2 h

/-- Witness for C4 at the zero vector `[0]` against `[1]`. -/
theorem cosine_zero_norm_nan_witness :
    ((sumSq [(0:ℚ)]) ^ 2 = sumSq [(0:ℚ)]) ∧
    ((sumSq [(1:ℚ)]) ^ 2 = sumSq [(1:ℚ)]) ∧
    (sumSq [(0:ℚ)] = 0 ∨ sumSq [(1:ℚ)] = 0) ∧
    cosine_similarity sumSq [0] [1] = ⊤ :=
  ⟨by norm_num [sumSq, dot], by norm_num [sumSq, dot],
   Or.inl (by norm_num [sumSq, dot]),
   cosine_zero_norm_nan sumSq [0] [1] (by norm_num [sumSq, dot])
     (by norm_num [sumSq, dot]) (Or.inl (by norm_num [sumSq, dot]))⟩

/-- C4 counterexample: for the zero vector the result is the non-finite
value (numpy `nan`), which is not the claimed similarity `0.0`. -/
theorem cosine_zero_not_zero_cex :
    cosine_similarity sumSq [0] [1] = ⊤ ∧
    cosine_similarity sumSq [0] [1] ≠ ((0:ℚ) : WithTop ℚ) := by
  have h : cosine_similarity sumSq [0] [1] = ⊤ := by
    norm_num [cosine_similarity, dot, sumSq]
  refine ⟨h, ?_⟩
  rw [h]
  simp

/-- C5: `preprocess_text` is idempotent for every stop-word set and every
input text. -/
theorem preprocess_idempotent (isStop : List Char → Bool) (text : List Char) :
    preprocess_text isStop (preprocess_text isStop text) =
      preprocess_text isStop text :=
  preprocess_text_idem_aux isStop text

/-- C6: for every non-empty input text, the string `get_embedding` submits
to the embedding provider is non-empty: when preprocessing strips
everything away, the original text is used instead. -/
theorem embedding_input_nonempty (isStop : List Char → Bool) {text : List Char}
    (h : text ≠ []) : get_embedding_input isStop text ≠ [] := by
  unfold get_embedding_input
  by_cases hs : pyStrip (preprocess_text isStop text) = []
  · rw [if_pos hs]
    exact h
  · rw [if_neg hs]
    intro hc
    exact hs (by rw [hc]; rfl)

/-- Witness for C6: the single-letter text `"a"`, with a stop-word set that
filters everything, still produces a non-empty provider input. -/
theorem embedding_input_nonempty_witness :
    (['a'] : List Char) ≠ [] ∧
    get_embedding_input (fun _ => true) ['a'] ≠ [] :=
  ⟨by decide, embedding_input_nonempty (fun _ => true) (by decide)⟩

/-- C7 (amended): an item lacking the required `title` raises `KeyError`
and aborts the whole batch (counterexample below) — nothing is skipped.
When every item carries the required fields and the source ids are
distinct, the report has exactly one entry per source item. -/
theorem match_products_entry_count (isStop : List Char → Bool)
    (embed : List Char → List ℚ) (norm : List ℚ → ℚ)
    {source_items target_items : List Item}
    (hs : ∀ item ∈ source_items, hasSourceFields item = true)
    (ht : ∀ item ∈ target_items, hasTargetFields item = true)
    (hnd : (source_items.map Item.japfa_id).Nodup) :
    ∃ r, match_products isStop embed norm source_items target_items
        MatchType.weighted = Except.ok r ∧ r.length = source_items.length :=
  match_products_weighted_ok isStop embed norm hs ht hnd

/-- Witness for C7: one complete source item and an empty target catalog
give a one-entry report. -/
theorem match_products_entry_count_witness :
    (∀ item ∈ [itemComplete], hasSourceFields item = true) ∧
    (∀ item ∈ ([] : List Item), hasTargetFields item = true) ∧
    ([itemComplete].map Item.japfa_id).Nodup ∧
    ∃ r, match_products (fun _ => false) (fun _ => [(1:ℚ)]) sumSq
        [itemComplete] [] MatchType.weighted = Except.ok r ∧
      r.length = [itemComplete].length :=
  ⟨by decide, by decide, by decide,
   @match_products_entry_count (fun _ => false) (fun _ => [(1:ℚ)]) sumSq
     [itemComplete] [] (by decide) (by decide) (by decide)⟩

/-- C7 counterexample: a source item lacking `title` makes the whole
batch abort with a `KeyError` (`Except.error`) before any report entry is
produced — the item is not skipped as claimed. -/
theorem match_products_missing_title_cex :
    match_products (fun _ => false) (fun _ => [(1:ℚ)]) sumSq [itemNoTitle] []
      MatchType.weighted = Except.error () := rfl

/-- C8 (amended): for scores in `[0, 1]` the confidence string
`f"{score*100:.2f}%"` written by `match_products` matches the frozen
dashboard pattern `\d+(\.\d+)?%`; negative scores in `[-1, 0)` break it
(counterexample below). -/
theorem confidence_pattern_nonneg {q : ℚ} (h0 : 0 ≤ q) (_h1 : q ≤ 1) :
    matchesConfPattern (pyFormatConfidence ((q : ℚ) : WithTop ℚ)) = true := by
  have hpf : pyFormatConfidence ((q : ℚ) : WithTop ℚ) = formatPercent2 q := rfl
  rw [hpf, formatPercent2_shape]
  have hv : ¬(q * 100 < 0) := not_lt.mpr (mul_nonneg h0 (by norm_num))
  rw [if_neg hv, List.nil_append]
  exact matchesConfPattern_of_shape (natDigits_spec _).1 (natDigits_spec _).2
    (twoDigits_spec _).1 (twoDigits_spec _).2

/-- Witness for C8 at score 0 (confidence `"0.00%"`). -/
theorem confidence_pattern_nonneg_witness :
    (0:ℚ) ≤ 0 ∧ (0:ℚ) ≤ 1 ∧
    matchesConfPattern (pyFormatConfidence ((0:ℚ) : WithTop ℚ)) = true :=
  ⟨le_refl 0, zero_le_one, confidence_pattern_nonneg (le_refl 0) zero_le_one⟩

/-- C8 counterexample: the score `-0.5` lies in the claimed range
`[-1, 1]` but formats as `"-50.00%"`, whose leading minus sign fails the
pattern `\d+(\.\d+)?%`. -/
theorem confidence_pattern_negative_cex :
    pyFormatConfidence ((-1/2 : ℚ) : WithTop ℚ) = "-50.00%".data ∧
    matchesConfPattern (pyFormatConfidence ((-1/2 : ℚ) : WithTop ℚ)) = false := by
  have h : pyFormatConfidence ((-1/2 : ℚ) : WithTop ℚ) = "-50.00%".data := by
    show formatPercent2 (-1/2) = "-50.00%".data
    have hr : roundHalfEven (-1 / 2 * 100 * 100) = -5000 := by
      norm_num [roundHalfEven]
    have hv : ((-1 : ℚ) / 2 * 100 < 0) := by norm_num
    simp only [formatPercent2, formatTwoDec, hr, if_pos hv]
    decide
  exact ⟨h, by rw [h]; decide⟩

/-- C9 (amended): `get_embedding` performs no rate-limit handling at all —
it issues exactly one provider call (attempt 0) on the preprocessed input
and returns that response as is, sleeping never; any rate-limit exception
propagates.  The sleep-for-the-provider-delay-and-retry-indefinitely
policy the claim describes lives in `call_gemini`
(`modify_description.py`): there, a 429 with retry delay 5 s causes
exactly one 5-second sleep before the following success is accepted. -/
theorem get_embedding_no_retry (isStop : List Char → Bool)
    (provider : List Char → Nat → Except Nat (List ℚ)) (text : List Char)
    (t : List Char) :
    (get_embedding isStop provider text).2 = [] ∧
    (get_embedding isStop provider text).1 =
      provider (get_embedding_input isStop text) 0 ∧
    call_gemini [GeminiResp.rate (some 5), GeminiResp.ok t] = (some t, [5]) :=
  ⟨rfl, rfl, rfl⟩

/-- C9 counterexample: a provider whose first response is a rate limit
with retry delay 5.  `get_embedding` returns the error with an empty sleep
log instead of sleeping ≥ 5 s once and accepting the second (successful)
response, refuting the claimed retry behavior. -/
theorem get_embedding_rate_limit_cex :
    get_embedding (fun _ => false)
      (fun _ n => if n = 0 then Except.error 5 else Except.ok [(1:ℚ)])
      ['a'] = (Except.error 5, []) ∧
    get_embedding (fun _ => false)
      (fun _ n => if n = 0 then Except.error 5 else Except.ok [(1:ℚ)])
      ['a'] ≠ (Except.ok [(1:ℚ)], [5]) := by
  have h : get_embedding (fun _ => false)
      (fun _ n => if n = 0 then Except.error 5 else Except.ok [(1:ℚ)])
      ['a'] = (Except.error 5, []) := rfl
  exact ⟨h, by rw [h]; simp⟩

/-- C10 (amended): no configuration validation exists.
`get_weighted_embedding` computes with ANY weights — summing to 1 or not —
and returns a full-size vector without raising, and `get_top_matches` with
`k = 0` silently returns ALL targets (the Python slice `[-0:]` is the
whole list) instead of rejecting `k ≤ 0`. -/
theorem no_config_validation (isStop : List Char → Bool)
    (embed : List Char → List ℚ) (norm : List ℚ → ℚ)
    (title description product_type : List Char) (w1 w2 w3 : ℚ)
    (nrm : List ℚ → ℚ) (source_embedding : List ℚ)
    (target_embeddings : List (List ℚ)) :
    (get_weighted_embedding isStop embed norm title description product_type
      w1 w2 w3).length =
      (weighted_sum isStop embed title description product_type
        w1 w2 w3).length ∧
    (top_matches_idx nrm source_embedding target_embeddings 0).length =
      target_embeddings.length := by
  constructor
  · unfold get_weighted_embedding
    exact List.length_map _ _
  · unfold top_matches_idx
    rw [List.length_map, List.length_reverse]
    show (pyTailSlice (argsort _) 0).length = _
    unfold pyTailSlice
    rw [if_neg (by omega : ¬(0:Int) < 0), if_pos rfl, argsort_length,
      List.length_map]

/-- C10 counterexample: weights `1, 1, 1` (sum 3 ≠ 1) are silently used —
the call completes normally, producing `[6]/‖[6]‖ = [1]` — and `k = 0`
returns both targets instead of being rejected. -/
theorem config_not_validated_cex :
    get_weighted_embedding (fun _ => false) (fun _ => [(2:ℚ)]) (fun _ => 6)
      ['t'] ['d'] ['y'] 1 1 1 = [1] ∧
    top_matches_idx sumSq [1] [[1], [1]] 0 = [(1, (1 : WithTop ℚ)), (0, 1)] := by
  constructor
  · norm_num [get_weighted_embedding, weighted_sum, embedText, vecAdd, vecScale]
  · norm_num [top_matches_idx, cosine_similarity, dot, sumSq, argsort, argRel,
      simKey, pyTailSlice]
